import Mathlib

/-!
# RiftBuilder: deck parser and comparison engine, shallowly embedded

A shallow embedding of the core of the RiftBuilder repository:

* `src/lib/deckParser.ts` — `parseExportedDeck`, `parseCardLine`,
  `BATTLEFIELD_NAMES`;
* `src/lib/comparison.ts` — `normalizeInventory`, `compareDeck`,
  `collectDeckRequirements`.

Strings are modelled as `List Char` (`Str`), JavaScript numbers that reach
the inventory normalizer as `Option ℚ` (`none` = the `Number(...)` coercion
produced `NaN`/`±Infinity`, `some q` = it produced the finite value `q`),
and thrown exceptions as `Except Str`.  JavaScript objects are modelled as
association lists in insertion order; the engine only ever reads them
through point lookups, so the special enumeration order JavaScript gives
integer-like keys is irrelevant here and is not modelled.
-/

abbrev Str := List Char

/-- The whitespace characters relevant to the ASCII payloads the tool
handles; both JavaScript's `\s` class and `String.prototype.trim` treat
exactly these ASCII characters as whitespace. -/
def isSpaceChar (c : Char) : Bool :=
  c = ' ' || c = '\t' || c = '\r' || c = '\n' || c = '\x0b' || c = '\x0c'

def isDigitChar (c : Char) : Bool :=
  '0' ≤ c && c ≤ '9'

/-- `String.prototype.trim`: drop leading and trailing whitespace. -/
def trimStr (s : Str) : Str :=
  ((s.dropWhile isSpaceChar).reverse.dropWhile isSpaceChar).reverse

/-- `exportText.split(/\r?\n/)`: split on `"\n"`, also consuming a `"\r"`
that immediately precedes it; a lone `"\r"` does not split. -/
def splitLines : Str → List Str
  | [] => [[]]
  | '\r' :: '\n' :: rest =>
    [] :: splitLines rest
  | '\n' :: rest =>
    [] :: splitLines rest
  | c :: rest =>
    match splitLines rest with
    | [] => [[c]]
    | l :: ls => (c :: l) :: ls

def toLowerStr (s : Str) : Str := s.map Char.toLower

/-- `pat` occurs at the start of `hay`. -/
def strStartsWith : Str → Str → Bool
  | [], _ => true
  | _ :: _, [] => false
  | p :: ps, c :: cs => p = c && strStartsWith ps cs

/-- `pat` occurs somewhere inside `hay` (substring test). -/
def strContains (hay pat : Str) : Bool :=
  match hay with
  | [] => strStartsWith pat []
  | _ :: rest => strStartsWith pat hay || strContains rest pat

/-- Digit-string to number, as `Number("123…")` on a digit-only string. -/
def digitsToNat (ds : Str) : Nat :=
  ds.foldl (fun acc c => acc * 10 + (c.toNat - '0'.toNat)) 0

structure CardEntry where
  count : Nat
  name : Str
deriving DecidableEq, Repr

structure DeckExport where
  main : List CardEntry
  battlefields : List CardEntry
  runes : List CardEntry
  sideboard : List CardEntry
deriving DecidableEq, Repr

def emptyDeck : DeckExport := ⟨[], [], [], []⟩

inductive DeckBucket
  | main
  | battlefields
  | runes
  | sideboard
deriving DecidableEq, Repr

def pushBucket (d : DeckExport) (b : DeckBucket) (e : CardEntry) : DeckExport :=
  match b with
  | .main => { d with main := d.main ++ [e] }
  | .battlefields => { d with battlefields := d.battlefields ++ [e] }
  | .runes => { d with runes := d.runes ++ [e] }
  | .sideboard => { d with sideboard := d.sideboard ++ [e] }

/-- `BATTLEFIELD_NAMES` from `deckParser.ts` (a `Set`; membership is an
exact, case-sensitive match). -/
def battlefieldNames : List Str :=
  [ "Grove of the God-Willow".toList
  , "Hallowed Tomb".toList
  , "Monastery of Hirana".toList
  , "Navori Fighting Pit".toList
  , "Obelisk of Power".toList
  , "Reaver's Row".toList
  , "Reckoner's Arena".toList
  , "Sigil of the Storm".toList
  , "Startipped Peak".toList
  , "Targon's Peak".toList
  , "The Arena's Greatest".toList
  , "The Candlelit Sanctum".toList
  , "The Dreaming Tree".toList
  , "The Grand Plaza".toList
  , "Trifarian War Camp".toList
  , "Vilemaw's Lair".toList
  , "Void Gate".toList
  , "Windswept Hillock".toList
  , "Zaun Warrens".toList ]

/-- `/^Sideboard:?$/i.test(line)`. -/
def isSideboardMarker (line : Str) : Bool :=
  toLowerStr line = "sideboard".toList || toLowerStr line = "sideboard:".toList

/-- The line-terminator characters of the ASCII payloads the tool
handles, which `.` in a JavaScript regex never matches although `\s`
does.  A lone `"\r"` is not consumed by the `split(/\r?\n/)` above, so it
can sit inside a line. -/
def isLineTermChar (c : Char) : Bool :=
  c = '\r' || c = '\n'

/-- `parseCardLine` from `deckParser.ts`: match the line against
`/^(\d+)\s+(.+)$/` and trim the name group.  `\d+` is forced onto the
maximal leading digit run (a digit is not `\s`); `\s+` wants the maximal
whitespace run after it; `(.+)$` needs a non-empty remainder reaching the
end of input with no line-terminator character, since `.` excludes those
and `$` (no `m` flag) anchors only at the very end.  When the remainder
after the maximal whitespace run is empty — the whole tail is whitespace —
`\s+` backtracks one character so that `.+` can match it, which succeeds
exactly when the whitespace run has at least two characters and its last
one is not a line terminator. -/
def parseCardLine (line : Str) : Option CardEntry :=
  let digits := line.takeWhile isDigitChar
  let rest := line.dropWhile isDigitChar
  let ws := rest.takeWhile isSpaceChar
  let tail := rest.dropWhile isSpaceChar
  if digits.isEmpty || ws.isEmpty then none
  else if tail.isEmpty then
    match ws.reverse with
    | c :: _ :: _ =>
      if isLineTermChar c then none
      else some ⟨digitsToNat digits, trimStr [c]⟩
    | _ => none
  else if tail.any isLineTermChar then none
  else some ⟨digitsToNat digits, trimStr tail⟩

structure ParseState where
  deck : DeckExport
  sec : DeckBucket
deriving DecidableEq, Repr

/-- The body of the `for` loop of `parseExportedDeck`, for one raw line. -/
def parseStep (st : ParseState) (rawLine : Str) : Except Str ParseState :=
  let line := trimStr rawLine
  if line.isEmpty then .ok st
  else if isSideboardMarker line then .ok ⟨st.deck, .sideboard⟩
  else
    match parseCardLine line with
    | none => .error ("Unable to parse export line: ".toList ++ line)
    | some entry =>
      if strContains (toLowerStr entry.name) ("rune".toList) then
        .ok ⟨pushBucket st.deck .runes entry, st.sec⟩
      else if battlefieldNames.contains entry.name then
        .ok ⟨pushBucket st.deck .battlefields entry, st.sec⟩
      else
        .ok ⟨pushBucket st.deck st.sec entry, st.sec⟩

def runParse (st : ParseState) : List Str → Except Str ParseState
  | [] => .ok st
  | l :: ls =>
    match parseStep st l with
    | .error e => .error e
    | .ok st' => runParse st' ls

/-- `parseExportedDeck` from `deckParser.ts`. -/
def parseExportedDeck (exportText : Str) : Except Str DeckExport :=
  (runParse ⟨emptyDeck, .main⟩ (splitLines exportText)).map ParseState.deck

/-! ## Comparison engine (`comparison.ts`) -/

/-- `Inventory = Record<string, number>`, as an association list in
insertion order with unique keys and the normalizer's non-negative
integer values. -/
abbrev Inventory := List (Str × Nat)

/-- `inventory[name] ?? 0`. -/
def lookupCount : Inventory → Str → Nat
  | [], _ => 0
  | (k, v) :: rest, n => if k = n then v else lookupCount rest n

def hasKey : Inventory → Str → Bool
  | [], _ => false
  | (k, _) :: rest, n => k = n || hasKey rest n

/-- `acc[name] = (acc[name] ?? 0) + v` on a JavaScript object: an existing
key keeps its position, a fresh key is appended. -/
def addCount : Inventory → Str → Nat → Inventory
  | [], n, v => [(n, v)]
  | (k, x) :: rest, n, v =>
    if k = n then (k, x + v) :: rest else (k, x) :: addCount rest n v

/-- `acc[name] = v` on a JavaScript object. -/
def setCount : Inventory → Str → Nat → Inventory
  | [], n, v => [(n, v)]
  | (k, x) :: rest, n, v =>
    if k = n then (k, v) :: rest else (k, x) :: setCount rest n v

/-- `Math.max(0, Math.floor(count))` on a finite number. -/
def clampCount (q : ℚ) : Nat := (max 0 ⌊q⌋).toNat

/-- One element of an array-shaped inventory source.  `record name count`
is an object carrying both a `name` and a `count` field, with `name` the
result of the `String(...)` coercion and `count` the result of the
`Number(...)` coercion (`none` when that is not finite); `other` is any
element failing the `item && typeof item === "object" && "name" in item
&& "count" in item` guard. -/
inductive InvItem
  | record (name : Str) (count : Option ℚ)
  | other
deriving DecidableEq

/-- The top-level shapes `normalizeInventory` distinguishes.  `arr` is an
array; `objWithCards cards` is a non-null object whose `cards` field is
present and is an array; `obj entries` is any other non-null object — its
entries listed with values already coerced through `Number(...)` — which
covers both the absence of a `cards` field and a `cards` field that is not
an array (then `("cards".toList, v)` is simply one of the entries);
`invalid` is anything else (null or a primitive). -/
inductive InvSource
  | arr (items : List InvItem)
  | objWithCards (cards : List InvItem)
  | obj (entries : List (Str × Option ℚ))
  | invalid
deriving DecidableEq

/-- The reducer of the array branch of `normalizeInventory`: a record
with a nonempty trimmed name and a finite count adds its clamped count
into the accumulator; everything else is skipped. -/
def arrStep (acc : Inventory) (item : InvItem) : Inventory :=
  match item with
  | .record name count =>
    let t := trimStr name
    match count with
    | some q => if t.isEmpty then acc else addCount acc t (clampCount q)
    | none => acc
  | .other => acc

/-- The array branch of `normalizeInventory`. -/
def normalizeArr (items : List InvItem) : Inventory :=
  items.foldl arrStep []

/-- The reducer of the plain-object branch of `normalizeInventory`: a
nonempty key with a finite value is assigned its clamped value; empty
keys and non-finite values are skipped. -/
def objStep (acc : Inventory) (p : Str × Option ℚ) : Inventory :=
  if p.1.isEmpty then acc
  else
    match p.2 with
    | some q => setCount acc p.1 (clampCount q)
    | none => acc

/-- The plain-object branch of `normalizeInventory`. -/
def normalizeObj (entries : List (Str × Option ℚ)) : Inventory :=
  entries.foldl objStep []

/-- `normalizeInventory` from `comparison.ts`. -/
def normalizeInventory : InvSource → Except Str Inventory
  | .arr items => .ok (normalizeArr items)
  | .objWithCards cards => .ok (normalizeArr cards)
  | .obj entries => .ok (normalizeObj entries)
  | .invalid =>
    .error ("Unsupported inventory format. Use an object map or an array of \x7b name, count \x7d entries.".toList)

structure RequirementEntry where
  count : Nat
  name : Str
  bucket : DeckBucket
deriving DecidableEq, Repr

def bucketList (d : DeckExport) : DeckBucket → List CardEntry
  | .main => d.main
  | .battlefields => d.battlefields
  | .runes => d.runes
  | .sideboard => d.sideboard

/-- `collectDeckRequirements` from `comparison.ts`: flat-map the four
buckets in the fixed order, tagging each entry with its bucket. -/
def collectDeckRequirements (deck : DeckExport) : List RequirementEntry :=
  [DeckBucket.main, DeckBucket.battlefields, DeckBucket.runes, DeckBucket.sideboard].flatMap
    (fun b => (bucketList deck b).map (fun c => ⟨c.count, c.name, b⟩))

structure MissingCard where
  name : Str
  required : Nat
  owned : Nat
  missing : Nat
  bucket : DeckBucket
deriving DecidableEq, Repr

inductive ComparisonStatus
  | buildable
  | close
  | unbuildable
deriving DecidableEq, Repr

structure DeckComparison where
  missingCards : List MissingCard
  totalMissing : Nat
  status : ComparisonStatus
deriving DecidableEq, Repr

/-- The body of the `for` loop of `compareDeck`: accumulate the missing
cards and the running `totalMissing`. -/
def compareStep (inventory : Inventory) (acc : List MissingCard × Nat)
    (card : RequirementEntry) : List MissingCard × Nat :=
  let owned := lookupCount inventory card.name
  if owned < card.count then
    let deficit := card.count - owned
    (acc.1 ++ [⟨card.name, card.count, owned, deficit, card.bucket⟩], acc.2 + deficit)
  else acc

/-- The status ternary of `compareDeck`:
`totalMissing === 0 ? "buildable" : totalMissing <= maxMissing ? "close" :
"unbuildable"`. -/
def statusOf (totalMissing : Nat) (maxMissing : Int) : ComparisonStatus :=
  if totalMissing = 0 then .buildable
  else if (totalMissing : Int) ≤ maxMissing then .close
  else .unbuildable

/-- `compareDeck` from `comparison.ts`, on a deck whose parsed
`DeckExport` is available (`ensureParsed` already hydrated).  `maxMissing`
is an `Int` because the threshold is an arbitrary caller-supplied
number. -/
def compareDeck (parsed : DeckExport) (inventory : Inventory)
    (maxMissing : Int) : DeckComparison :=
  let requirements := collectDeckRequirements parsed
  let folded := requirements.foldl (compareStep inventory) ([], 0)
  ⟨folded.1, folded.2, statusOf folded.2 maxMissing⟩

/-! ## Specification-side reference definitions

These follow the spec's wording and are compared with the embedded code
in the refinement theorems below. -/

/-- Spec §4.3 step 2: flatten the four buckets into one requirement list,
bucket-major in the order main, battlefields, runes, sideboard, keeping
each bucket's internal order. -/
def specRequirements (d : DeckExport) : List RequirementEntry :=
  d.main.map (fun c => ⟨c.count, c.name, .main⟩)
    ++ d.battlefields.map (fun c => ⟨c.count, c.name, .battlefields⟩)
    ++ d.runes.map (fun c => ⟨c.count, c.name, .runes⟩)
    ++ d.sideboard.map (fun c => ⟨c.count, c.name, .sideboard⟩)

/-- Spec §4.3 step 3: a requirement contributes a `MissingCard` exactly
when `owned < required`, with `missing = required - owned`. -/
def specMissingOf (inventory : Inventory) (r : RequirementEntry) :
    Option MissingCard :=
  let owned := lookupCount inventory r.name
  if owned < r.count then some ⟨r.name, r.count, owned, r.count - owned, r.bucket⟩
  else none

/-- The spec's reference missing-card list: keep, in requirement order,
exactly the requirements with a shortfall. -/
def specMissingCards (d : DeckExport) (inventory : Inventory) :
    List MissingCard :=
  (specRequirements d).filterMap (specMissingOf inventory)

/-- Spec §4.1 step 5: classify an entry by priority — rune substring
first, then the closed battlefield list, else the section cursor. -/
def classifyEntry (sec : DeckBucket) (e : CardEntry) : DeckBucket :=
  if strContains (toLowerStr e.name) ("rune".toList) then .runes
  else if battlefieldNames.contains e.name then .battlefields
  else sec

/-- The claim's `"<positive integer> <name>"` line shape, read literally:
a leading **positive** integer, whitespace, then at least one name
character. -/
def matchesPosIntShape (line : Str) : Bool :=
  match parseCardLine line with
  | some e => decide (0 < e.count)
  | none => false

/-- The favourability order on statuses:
`unbuildable < close < buildable`. -/
def statusRank : ComparisonStatus → Nat
  | .unbuildable => 0
  | .close => 1
  | .buildable => 2

def isParseError : Except Str DeckExport → Bool
  | .error _ => true
  | .ok _ => false

/-- The data lines of an export text: every line, trimmed, that is
neither blank nor a sideboard marker. -/
def dataLines (t : Str) : List Str :=
  ((splitLines t).map trimStr).filter
    (fun l => !l.isEmpty && !isSideboardMarker l)

/-- A raw line is a data line: trimmed it is neither blank nor a
sideboard marker. -/
def isDataLine (l : Str) : Bool :=
  !(trimStr l).isEmpty && !isSideboardMarker (trimStr l)

/-- A raw line the parser rejects: a data line whose trimmed form fails
the card-line regex. -/
def badLine (l : Str) : Bool :=
  isDataLine l && (parseCardLine (trimStr l)).isNone

/-- The number of `CardEntry` records across the four buckets. -/
def totalEntries (d : DeckExport) : Nat :=
  d.main.length + d.battlefields.length + d.runes.length + d.sideboard.length

/-- Every card name in the deck is its own trim. -/
def allNamesTrimmed (d : DeckExport) : Bool :=
  (d.main ++ d.battlefields ++ d.runes ++ d.sideboard).all
    (fun e => trimStr e.name == e.name)

/-- The count an array element contributes to the normalized total of the
(nonempty, trimmed) name `n`: its floor-clamped count when it is a valid
record for `n`, zero otherwise. -/
def itemContribution (n : Str) : InvItem → Nat
  | .record name count =>
    match count with
    | some q => if trimStr name = n && !(trimStr name).isEmpty then clampCount q else 0
    | none => 0
  | .other => 0

/-- Total contribution of an inventory array to the name `n`. -/
def sumContributions (items : List InvItem) (n : Str) : Nat :=
  (items.map (itemContribution n)).sum

/-- Re-present a normalized mapping as a plain-object inventory source:
each owned count is a finite JavaScript number, so its `Number(...)`
coercion is itself. -/
def invToEntries (inv : Inventory) : List (Str × Option ℚ) :=
  inv.map (fun p => (p.1, some (p.2 : ℚ)))

def keysOf (inv : Inventory) : List Str := inv.map Prod.fst

/-! ## Lemmas: comparison engine -/

lemma collect_eq_spec (d : DeckExport) :
    collectDeckRequirements d = specRequirements d := by
  simp [collectDeckRequirements, specRequirements, bucketList]

lemma foldl_compareStep (inv : Inventory) (reqs : List RequirementEntry) :
    ∀ (acc : List MissingCard) (t : Nat),
      reqs.foldl (compareStep inv) (acc, t)
        = (acc ++ reqs.filterMap (specMissingOf inv),
           t + ((reqs.filterMap (specMissingOf inv)).map MissingCard.missing).sum) := by
  induction reqs with
  | nil => intro acc t; simp
  | cons r reqs ih =>
    intro acc t
    simp only [List.foldl_cons, List.filterMap_cons]
    by_cases h : lookupCount inv r.name < r.count
    · simp only [compareStep, specMissingOf, if_pos h, ih]
      simp [List.append_assoc]
      omega
    · simp only [compareStep, specMissingOf, if_neg h, ih]

/-- C1: `compareDeck` returns exactly the reference missing-card
computation — the four buckets flattened in the order main, battlefields,
runes, sideboard with internal order preserved, keeping precisely the
entries with `owned < required`, each with `missing = required - owned`
and its bucket, and `totalMissing` the sum of those `missing` values. -/
theorem compareDeck_missing_spec (d : DeckExport) (inv : Inventory) (m : Int) :
    (compareDeck d inv m).missingCards = specMissingCards d inv
    ∧ (compareDeck d inv m).totalMissing
        = ((specMissingCards d inv).map MissingCard.missing).sum := by
  simp only [compareDeck, specMissingCards]
  rw [collect_eq_spec, foldl_compareStep]
  simp

/-- C2: the status of `compareDeck` is `buildable` iff `totalMissing = 0`,
`close` iff `0 < totalMissing ≤ maxMissing` (inclusive bound), and
`unbuildable` in every other case. -/
theorem compareDeck_status_spec (d : DeckExport) (inv : Inventory) (m : Int) :
    ((compareDeck d inv m).status = .buildable
        ↔ (compareDeck d inv m).totalMissing = 0)
    ∧ ((compareDeck d inv m).status = .close
        ↔ 0 < (compareDeck d inv m).totalMissing
            ∧ ((compareDeck d inv m).totalMissing : Int) ≤ m)
    ∧ ((compareDeck d inv m).status = .unbuildable
        ↔ ¬((compareDeck d inv m).totalMissing = 0)
            ∧ ¬(((compareDeck d inv m).totalMissing : Int) ≤ m)) := by
  have hs : (compareDeck d inv m).status
      = statusOf (compareDeck d inv m).totalMissing m := rfl
  rw [hs]
  generalize (compareDeck d inv m).totalMissing = tm
  unfold statusOf
  split_ifs with h1 h2 <;> simp_all <;> omega

lemma statusOf_mono (tm : Nat) {m1 m2 : Int} (h : m1 ≤ m2) :
    statusRank (statusOf tm m1) ≤ statusRank (statusOf tm m2) := by
  unfold statusOf statusRank
  split_ifs <;> simp_all <;> omega

/-- C7: for a fixed deck and inventory the status is monotone in the
threshold, under the favourability order
`unbuildable < close < buildable`. -/
theorem compareDeck_status_monotone (d : DeckExport) (inv : Inventory)
    (m1 m2 : Int) (h : m1 ≤ m2) :
    statusRank (compareDeck d inv m1).status
      ≤ statusRank (compareDeck d inv m2).status :=
  statusOf_mono _ h

/-- Witness for C7 at a concrete deck, inventory and threshold pair. -/
theorem compareDeck_status_monotone_witness :
    (1 : Int) ≤ 2
    ∧ statusRank (compareDeck ⟨[⟨2, "X".toList⟩], [], [], []⟩ [] 1).status
        ≤ statusRank (compareDeck ⟨[⟨2, "X".toList⟩], [], [], []⟩ [] 2).status :=
  ⟨by decide, compareDeck_status_monotone ⟨[⟨2, "X".toList⟩], [], [], []⟩ [] 1 2 (by decide)⟩

/-! ## Lemmas: parser classification -/

/-- C3: each non-blank line is handled as follows — a sideboard marker
only moves the cursor and emits nothing, and every other line that parses
emits exactly one entry into the bucket chosen by the rune-substring rule
first, the closed battlefield list second, and the cursor only as the
fallback, leaving the cursor unchanged. -/
theorem parseStep_classification (st : ParseState) (l : Str) :
    (isSideboardMarker (trimStr l) = true →
        parseStep st l = .ok ⟨st.deck, .sideboard⟩)
    ∧ (∀ e : CardEntry, isSideboardMarker (trimStr l) = false →
        parseCardLine (trimStr l) = some e →
        parseStep st l
          = .ok ⟨pushBucket st.deck (classifyEntry st.sec e) e, st.sec⟩) := by
  constructor
  · intro hm
    have hne : (trimStr l).isEmpty = false := by
      cases htl : trimStr l with
      | nil => rw [htl] at hm; simp [isSideboardMarker, toLowerStr] at hm
      | cons c cs => simp
    simp [parseStep, hne, hm]
  · intro e hm hp
    have hne : (trimStr l).isEmpty = false := by
      cases htl : trimStr l with
      | nil => rw [htl] at hp; simp [parseCardLine] at hp
      | cons c cs => simp
    simp only [parseStep, hne, Bool.false_eq_true, if_false, hm, hp]
    unfold classifyEntry
    split_ifs <;> rfl

/-- Witness for C3: a padded `"Sideboard:"` line only switches the
cursor, and a rune-named line emitted while the cursor is on the
sideboard still lands in `runes`. -/
theorem parseStep_classification_witness :
    parseStep ⟨emptyDeck, .main⟩ ("  Sideboard:  ".toList)
      = .ok ⟨emptyDeck, .sideboard⟩
    ∧ parseStep ⟨emptyDeck, .sideboard⟩ ("2 Hidden Rune".toList)
      = .ok ⟨pushBucket emptyDeck
              (classifyEntry .sideboard ⟨2, "Hidden Rune".toList⟩)
              ⟨2, "Hidden Rune".toList⟩, .sideboard⟩ :=
  ⟨(parseStep_classification ⟨emptyDeck, .main⟩ _).1 (by decide),
   (parseStep_classification ⟨emptyDeck, .sideboard⟩ _).2
     ⟨2, "Hidden Rune".toList⟩ (by decide) (by decide)⟩

/-! ## Lemmas: inventory normalizer, array branch -/

lemma lookupCount_addCount (acc : Inventory) (k n : Str) (v : Nat) :
    lookupCount (addCount acc k v) n
      = lookupCount acc n + (if k = n then v else 0) := by
  induction acc with
  | nil => simp only [addCount, lookupCount]; split_ifs <;> simp_all
  | cons p acc ih =>
    obtain ⟨k', x⟩ := p
    simp only [addCount, lookupCount]
    split_ifs <;> simp_all [lookupCount] <;> omega

lemma foldl_arrStep (items : List InvItem) :
    ∀ (acc : Inventory) (n : Str),
      lookupCount (items.foldl arrStep acc) n
        = lookupCount acc n + sumContributions items n := by
  induction items with
  | nil => intro acc n; simp [sumContributions]
  | cons item items ih =>
    intro acc n
    simp only [List.foldl_cons, sumContributions, List.map_cons, List.sum_cons]
    rw [ih]
    have hstep : lookupCount (arrStep acc item) n
        = lookupCount acc n + itemContribution n item := by
      cases item with
      | other => simp [arrStep, itemContribution]
      | record name count =>
        cases count with
        | none => simp [arrStep, itemContribution]
        | some q =>
          simp only [arrStep, itemContribution]
          by_cases ht : (trimStr name).isEmpty
          · simp [ht]
          · by_cases he : trimStr name = n
            · have hn : n ≠ [] := by rw [he] at ht; cases n <;> simp_all
              simp [ht, he, hn, lookupCount_addCount]
            · simp [ht, he, lookupCount_addCount]
    rw [hstep]
    simp [sumContributions]
    omega

/-- C6: on an array input the normalizer never fails, and the resulting
mapping assigns to every name the sum — not the overwrite — of the
floor-clamped counts of the valid records bearing that trimmed name,
records without usable fields being skipped; in particular two records
for `"Card A"` with counts 2 and 1 normalize to the single total 3. -/
theorem normalizeInventory_array_spec (items : List InvItem) (n : Str) :
    normalizeInventory (.arr items) = .ok (normalizeArr items)
    ∧ lookupCount (normalizeArr items) n = sumContributions items n
    ∧ normalizeArr
        [ .record ("Card A".toList) (some 2)
        , .record ("Card A".toList) (some 1) ]
        = [("Card A".toList, 3)] := by
  refine ⟨rfl, ?_, by decide⟩
  have h := foldl_arrStep items [] n
  simpa [normalizeArr, lookupCount] using h

/-! ## Lemmas: parse failure and entry count -/

lemma parseStep_error_iff (st : ParseState) (l : Str) :
    (∃ msg, parseStep st l = .error msg) ↔ badLine l = true := by
  by_cases h1 : (trimStr l).isEmpty
  · simp [parseStep, badLine, isDataLine, h1]
  · by_cases h2 : isSideboardMarker (trimStr l)
    · simp [parseStep, badLine, isDataLine, h1, h2]
    · cases h3 : parseCardLine (trimStr l) with
      | none => simp [parseStep, badLine, isDataLine, h1, h2, h3]
      | some e =>
        simp only [parseStep, badLine, isDataLine, h1, h2, h3]
        split_ifs <;> simp [h1, h2]
lemma runParse_error_iff (lines : List Str) :
    ∀ st : ParseState, (∃ msg, runParse st lines = .error msg)
      ↔ ∃ l ∈ lines, badLine l = true := by
  induction lines with
  | nil => intro st; simp [runParse]
  | cons l ls ih =>
    intro st
    cases hs : parseStep st l with
    | error msg =>
      have hb : badLine l = true := (parseStep_error_iff st l).mp ⟨msg, hs⟩
      simp only [runParse, hs]
      constructor
      · intro _; exact ⟨l, List.mem_cons_self l ls, hb⟩
      · intro _; exact ⟨msg, rfl⟩
    | ok st1 =>
      have hb : badLine l = false := by
        cases hfb : badLine l with
        | false => rfl
        | true =>
          obtain ⟨msg, hmsg⟩ := (parseStep_error_iff st l).mpr hfb
          rw [hs] at hmsg
          cases hmsg
      simp only [runParse, hs, ih st1]
      constructor
      · rintro ⟨x, hx, hbx⟩; exact ⟨x, List.mem_cons_of_mem _ hx, hbx⟩
      · rintro ⟨x, hx, hbx⟩
        rcases List.mem_cons.mp hx with rfl | hx'
        · rw [hb] at hbx; cases hbx
        · exact ⟨x, hx', hbx⟩

lemma exists_badLine_iff_dataLines (t : Str) :
    (∃ l ∈ splitLines t, badLine l = true)
      ↔ ∃ l ∈ dataLines t, parseCardLine l = none := by
  unfold dataLines
  constructor
  · rintro ⟨l, hl, hb⟩
    have hd : isDataLine l = true ∧ (parseCardLine (trimStr l)).isNone = true := by
      simpa [badLine] using hb
    refine ⟨trimStr l, ?_, ?_⟩
    · refine List.mem_filter.mpr ⟨List.mem_map_of_mem _ hl, ?_⟩
      simpa [isDataLine] using hd.1
    · simpa [Option.isNone_iff_eq_none] using hd.2
  · rintro ⟨l', hl', hp⟩
    obtain ⟨hm, hcond⟩ := List.mem_filter.mp hl'
    obtain ⟨l, hl, hlt⟩ := List.mem_map.mp hm
    subst hlt
    refine ⟨l, hl, ?_⟩
    simp only [badLine, isDataLine]
    simp only [Bool.and_eq_true] at hcond ⊢
    exact ⟨hcond, by simp [hp]⟩

/-- C4 counterexample: the data line `"0 Fake"` does not have the
`"<positive integer> <name>"` shape (its leading integer is 0), yet
`parseExportedDeck` does not fail — it returns the full deck with a
count-0 main entry. -/
theorem parse_posIntShape_counterexample :
    matchesPosIntShape (trimStr ("0 Fake".toList)) = false
    ∧ "0 Fake".toList ∈ dataLines ("0 Fake".toList)
    ∧ parseExportedDeck ("0 Fake".toList)
        = .ok ⟨[⟨0, "Fake".toList⟩], [], [], []⟩ :=
  ⟨by decide, by decide, rfl⟩

/-- C4 (amended): `parse` fails exactly when some data line fails the
card-line pattern — a leading **digit run** (zero allowed) followed by
whitespace and at least one further character; the `Except` result means
a failure carries no partial deck. -/
theorem parseExportedDeck_error_iff (t : Str) :
    isParseError (parseExportedDeck t) = true
      ↔ ∃ l ∈ dataLines t, parseCardLine l = none := by
  have h1 : isParseError (parseExportedDeck t) = true
      ↔ ∃ msg, runParse ⟨emptyDeck, .main⟩ (splitLines t) = .error msg := by
    unfold parseExportedDeck isParseError
    cases runParse ⟨emptyDeck, .main⟩ (splitLines t) with
    | error e => simp [Except.map]
    | ok s => simp [Except.map]
  rw [h1, runParse_error_iff (splitLines t) ⟨emptyDeck, .main⟩,
    exists_badLine_iff_dataLines]

lemma totalEntries_pushBucket (d : DeckExport) (b : DeckBucket) (e : CardEntry) :
    totalEntries (pushBucket d b e) = totalEntries d + 1 := by
  cases b <;> simp [pushBucket, totalEntries] <;> omega

lemma parseStep_ok_entries (st st1 : ParseState) (l : Str)
    (h : parseStep st l = .ok st1) :
    totalEntries st1.deck
      = totalEntries st.deck + (if isDataLine l then 1 else 0) := by
  by_cases h1 : (trimStr l).isEmpty
  · simp only [parseStep, h1, if_true, Except.ok.injEq] at h
    subst h
    simp [isDataLine, h1]
  · by_cases h2 : isSideboardMarker (trimStr l)
    · simp only [parseStep, h1, h2] at h
      simp only [Bool.false_eq_true, if_false, if_true, Except.ok.injEq] at h
      subst h
      simp [isDataLine, h1, h2]
    · have hd : isDataLine l = true := by simp [isDataLine, h1, h2]
      cases h3 : parseCardLine (trimStr l) with
      | none => simp [parseStep, h1, h2, h3] at h
      | some e =>
        simp only [parseStep, h1, h2, h3, Bool.false_eq_true, if_false] at h
        split_ifs at h <;>
          (simp only [Except.ok.injEq] at h; subst h;
           simp [totalEntries_pushBucket, hd])

lemma runParse_ok_entries (lines : List Str) :
    ∀ st st' : ParseState, runParse st lines = .ok st' →
      totalEntries st'.deck
        = totalEntries st.deck + (lines.filter isDataLine).length := by
  induction lines with
  | nil =>
    intro st st' h
    simp only [runParse, Except.ok.injEq] at h
    subst h
    simp
  | cons l ls ih =>
    intro st st' h
    cases hs : parseStep st l with
    | error e => simp [runParse, hs] at h
    | ok st1 =>
      simp only [runParse, hs] at h
      rw [ih st1 st' h, parseStep_ok_entries st st1 l hs]
      by_cases hd : isDataLine l
      · simp [List.filter_cons, hd]; omega
      · simp [List.filter_cons, hd]

lemma filter_trim_length (ls : List Str) :
    ((ls.map trimStr).filter (fun l => !l.isEmpty && !isSideboardMarker l)).length
      = (ls.filter isDataLine).length := by
  induction ls with
  | nil => rfl
  | cons l ls ih =>
    by_cases hd : (!(trimStr l).isEmpty && !isSideboardMarker (trimStr l)) = true
    · simp [List.filter_cons, isDataLine, hd, ih]
    · have hd' : (!(trimStr l).isEmpty && !isSideboardMarker (trimStr l)) = false := by
        cases hx : (!(trimStr l).isEmpty && !isSideboardMarker (trimStr l)) with
        | false => rfl
        | true => exact absurd hx hd
      simp [List.filter_cons, isDataLine, hd', ih]

/-- C5: when `parse` succeeds, the four buckets together hold exactly one
`CardEntry` per data line — non-blank, non-marker line — of the source
text. -/
theorem parseExportedDeck_entry_count (t : Str) (d : DeckExport)
    (h : parseExportedDeck t = .ok d) :
    totalEntries d = (dataLines t).length := by
  unfold parseExportedDeck at h
  cases hr : runParse ⟨emptyDeck, .main⟩ (splitLines t) with
  | error e => rw [hr] at h; simp [Except.map] at h
  | ok st' =>
    rw [hr] at h
    simp only [Except.map, Except.ok.injEq] at h
    subst h
    have hrun := runParse_ok_entries (splitLines t) _ _ hr
    simp only [totalEntries, emptyDeck] at hrun
    simp only [totalEntries]
    rw [hrun]
    simp only [dataLines, filter_trim_length]
    simp

/-- Witness for C5 at the spec's sample export text. -/
theorem parseExportedDeck_entry_count_witness :
    totalEntries
        ⟨[⟨3, "Acceptable Losses".toList⟩, ⟨2, "Fleeting Thought".toList⟩],
         [], [], [⟨1, "Acceptable Losses".toList⟩]⟩
      = (dataLines
          ("3 Acceptable Losses\n2 Fleeting Thought\n\nSideboard:\n1 Acceptable Losses".toList)).length :=
  parseExportedDeck_entry_count _ _ rfl

/-! ## Lemmas: trimming -/

lemma dropWhile_append_all (p : Char → Bool) (ws l : Str)
    (h : ∀ c ∈ ws, p c = true) :
    (ws ++ l).dropWhile p = l.dropWhile p := by
  induction ws with
  | nil => rfl
  | cons c ws ih =>
    simp only [List.cons_append, List.dropWhile_cons,
      h c (List.mem_cons_self c ws), if_true]
    exact ih (fun x hx => h x (List.mem_cons_of_mem _ hx))

lemma dropWhile_eq_nil_all (p : Char → Bool) (ws : Str)
    (h : ∀ c ∈ ws, p c = true) : ws.dropWhile p = [] := by
  have := dropWhile_append_all p ws [] h
  simpa using this

lemma trimStr_pad (ws1 ws2 l : Str)
    (h1 : ∀ c ∈ ws1, isSpaceChar c = true)
    (h2 : ∀ c ∈ ws2, isSpaceChar c = true) :
    trimStr (ws1 ++ l ++ ws2) = trimStr l := by
  unfold trimStr
  rw [List.append_assoc, dropWhile_append_all _ ws1 _ h1,
    List.dropWhile_append]
  split_ifs with hl
  · have hws2 : ws2.dropWhile isSpaceChar = [] := dropWhile_eq_nil_all _ ws2 h2
    have hl' : l.dropWhile isSpaceChar = [] := List.isEmpty_iff.mp hl
    rw [hws2, hl']
  · rw [List.reverse_append,
      dropWhile_append_all _ ws2.reverse _
        (fun c hc => h2 c (List.mem_reverse.mp hc))]

lemma trim_decomposition (s : Str) :
    ∃ ws1 ws2 : Str, (∀ c ∈ ws1, isSpaceChar c = true)
      ∧ (∀ c ∈ ws2, isSpaceChar c = true)
      ∧ s = ws1 ++ trimStr s ++ ws2 := by
  refine ⟨s.takeWhile isSpaceChar,
    ((s.dropWhile isSpaceChar).reverse.takeWhile isSpaceChar).reverse,
    ?_, ?_, ?_⟩
  · exact fun c hc => List.mem_takeWhile_imp hc
  · exact fun c hc => List.mem_takeWhile_imp (List.mem_reverse.mp hc)
  · have hA : s = s.takeWhile isSpaceChar ++ s.dropWhile isSpaceChar :=
      (List.takeWhile_append_dropWhile isSpaceChar s).symm
    have hB : (s.dropWhile isSpaceChar).reverse
        = (s.dropWhile isSpaceChar).reverse.takeWhile isSpaceChar
          ++ (s.dropWhile isSpaceChar).reverse.dropWhile isSpaceChar :=
      (List.takeWhile_append_dropWhile isSpaceChar _).symm
    have hC : s.dropWhile isSpaceChar
        = trimStr s
          ++ ((s.dropWhile isSpaceChar).reverse.takeWhile isSpaceChar).reverse := by
      calc s.dropWhile isSpaceChar
          = ((s.dropWhile isSpaceChar).reverse).reverse :=
            (List.reverse_reverse _).symm
        _ = ((s.dropWhile isSpaceChar).reverse.takeWhile isSpaceChar
              ++ (s.dropWhile isSpaceChar).reverse.dropWhile isSpaceChar).reverse := by
            rw [← hB]
        _ = ((s.dropWhile isSpaceChar).reverse.dropWhile isSpaceChar).reverse
              ++ ((s.dropWhile isSpaceChar).reverse.takeWhile isSpaceChar).reverse :=
            List.reverse_append _ _
        _ = trimStr s
              ++ ((s.dropWhile isSpaceChar).reverse.takeWhile isSpaceChar).reverse := rfl
    calc s = s.takeWhile isSpaceChar ++ s.dropWhile isSpaceChar := hA
      _ = s.takeWhile isSpaceChar
          ++ (trimStr s
            ++ ((s.dropWhile isSpaceChar).reverse.takeWhile isSpaceChar).reverse) := by
          rw [← hC]
      _ = _ := by rw [List.append_assoc]

lemma trimStr_idem (s : Str) : trimStr (trimStr s) = trimStr s := by
  obtain ⟨ws1, ws2, h1, h2, hs⟩ := trim_decomposition s
  calc trimStr (trimStr s)
      = trimStr (ws1 ++ trimStr s ++ ws2) := (trimStr_pad ws1 ws2 _ h1 h2).symm
    _ = trimStr s := by rw [← hs]

lemma parseStep_trim (st : ParseState) (l : Str) :
    parseStep st (trimStr l) = parseStep st l := by
  unfold parseStep
  rw [trimStr_idem]

lemma runParse_map_trim (ls : List Str) :
    ∀ st : ParseState, runParse st (ls.map trimStr) = runParse st ls := by
  induction ls with
  | nil => intro st; rfl
  | cons l ls ih =>
    intro st
    simp only [List.map_cons, runParse, parseStep_trim]
    cases parseStep st l with
    | error e => rfl
    | ok st1 => exact ih st1

lemma parseCardLine_name_trimmed (l : Str) (e : CardEntry)
    (h : parseCardLine l = some e) : trimStr e.name = e.name := by
  simp only [parseCardLine] at h
  split_ifs at h with h1 h2 h3
  · cases hws : ((l.dropWhile isDigitChar).takeWhile isSpaceChar).reverse with
    | nil => rw [hws] at h; exact absurd h (by simp)
    | cons c rest =>
      cases rest with
      | nil => rw [hws] at h; exact absurd h (by simp)
      | cons c2 rest2 =>
        rw [hws] at h
        by_cases hterm : isLineTermChar c = true
        · simp [hterm] at h
        · simp only [hterm, Bool.false_eq_true, if_false,
            Option.some.injEq] at h
          rw [← h]
          exact trimStr_idem _
  · simp only [Option.some.injEq] at h
    rw [← h]
    exact trimStr_idem _

lemma allNamesTrimmed_push (d : DeckExport) (b : DeckBucket) (e : CardEntry)
    (hd : allNamesTrimmed d = true) (he : trimStr e.name = e.name) :
    allNamesTrimmed (pushBucket d b e) = true := by
  cases b <;>
    (simp [pushBucket, allNamesTrimmed, List.all_append] at hd ⊢; simp_all)

lemma parseStep_namesTrimmed (st st1 : ParseState) (l : Str)
    (hd : allNamesTrimmed st.deck = true) (hs : parseStep st l = .ok st1) :
    allNamesTrimmed st1.deck = true := by
  by_cases h1 : (trimStr l).isEmpty
  · simp only [parseStep, h1, if_true, Except.ok.injEq] at hs
    subst hs; exact hd
  · by_cases h2 : isSideboardMarker (trimStr l)
    · simp only [parseStep, h1, h2, Bool.false_eq_true, if_false, if_true,
        Except.ok.injEq] at hs
      subst hs; exact hd
    · cases h3 : parseCardLine (trimStr l) with
      | none => simp [parseStep, h1, h2, h3] at hs
      | some e =>
        have he : trimStr e.name = e.name := parseCardLine_name_trimmed _ _ h3
        simp only [parseStep, h1, h2, h3, Bool.false_eq_true, if_false] at hs
        split_ifs at hs <;>
          (simp only [Except.ok.injEq] at hs; subst hs;
           exact allNamesTrimmed_push _ _ _ hd he)

lemma runParse_namesTrimmed (ls : List Str) :
    ∀ st st' : ParseState, allNamesTrimmed st.deck = true →
      runParse st ls = .ok st' → allNamesTrimmed st'.deck = true := by
  induction ls with
  | nil =>
    intro st st' hd h
    simp only [runParse, Except.ok.injEq] at h
    subst h; exact hd
  | cons l ls ih =>
    intro st st' hd h
    cases hs : parseStep st l with
    | error e => simp [runParse, hs] at h
    | ok st1 =>
      simp only [runParse, hs] at h
      exact ih st1 st' (parseStep_namesTrimmed st st1 l hd hs) h

/-- C10: the parser trims each line before any other processing — running
it on per-line-trimmed input yields the same result as on the raw input —
and every card name a successful parse emits is its own trim, i.e. free
of leading and trailing whitespace. -/
theorem parse_trim_insensitive (st : ParseState) (ls : List Str) (t : Str)
    (d : DeckExport) (h : parseExportedDeck t = .ok d) :
    runParse st (ls.map trimStr) = runParse st ls
    ∧ allNamesTrimmed d = true := by
  refine ⟨runParse_map_trim ls st, ?_⟩
  unfold parseExportedDeck at h
  cases hr : runParse ⟨emptyDeck, .main⟩ (splitLines t) with
  | error e => rw [hr] at h; simp [Except.map] at h
  | ok st' =>
    rw [hr] at h
    simp only [Except.map, Except.ok.injEq] at h
    subst h
    exact runParse_namesTrimmed (splitLines t) _ _ (by decide) hr

/-- Witness for C10: an indented card line and a padded marker line parse
exactly like their trimmed forms, and the names of a concrete parsed deck
carry no surrounding whitespace. -/
theorem parse_trim_insensitive_witness :
    runParse ⟨emptyDeck, .main⟩
        ((["  3 Card  ".toList, "  Sideboard  ".toList, " 1 Other".toList]).map trimStr)
      = runParse ⟨emptyDeck, .main⟩
        ["  3 Card  ".toList, "  Sideboard  ".toList, " 1 Other".toList]
    ∧ allNamesTrimmed
        ⟨[⟨3, "Card".toList⟩], [], [], [⟨1, "Other".toList⟩]⟩ = true :=
  parse_trim_insensitive ⟨emptyDeck, .main⟩ _
    ("  3 Card  \n  Sideboard  \n 1 Other".toList) _ rfl

/-! ## Lemmas: inventory normalizer, plain-object branch -/

lemma hasKey_iff_mem (inv : Inventory) (n : Str) :
    hasKey inv n = true ↔ n ∈ keysOf inv := by
  induction inv with
  | nil => simp [hasKey, keysOf]
  | cons p inv ih =>
    obtain ⟨k, v⟩ := p
    simp [hasKey, keysOf, ih]
    constructor
    · rintro (rfl | h)
      · exact Or.inl rfl
      · exact Or.inr h
    · rintro (rfl | h)
      · exact Or.inl rfl
      · exact Or.inr h

lemma keysOf_setCount (acc : Inventory) (n : Str) (v : Nat) :
    keysOf (setCount acc n v)
      = if hasKey acc n = true then keysOf acc else keysOf acc ++ [n] := by
  induction acc with
  | nil => simp [setCount, keysOf, hasKey]
  | cons p acc ih =>
    obtain ⟨k, x⟩ := p
    by_cases hk : k = n
    · simp [setCount, keysOf, hasKey, hk]
    · simp only [setCount, hasKey, if_neg hk, keysOf, List.map_cons]
      rw [show keysOf (setCount acc n v) = List.map Prod.fst (setCount acc n v) from rfl] at ih
      rw [ih]
      by_cases hh : hasKey acc n = true
      · simp [hh, hk, keysOf]
      · simp [hh, hk, keysOf]

lemma setCount_append (acc : Inventory) (n : Str) (v : Nat)
    (h : hasKey acc n = false) : setCount acc n v = acc ++ [(n, v)] := by
  induction acc with
  | nil => rfl
  | cons p acc ih =>
    obtain ⟨k, x⟩ := p
    simp only [hasKey, Bool.or_eq_false_iff] at h
    have hk : ¬k = n := by
      intro hkn; rw [hkn] at h; simp at h
    simp only [setCount, if_neg hk, List.cons_append, List.cons.injEq, true_and]
    exact ih h.2

lemma lookupCount_setCount_self (acc : Inventory) (n : Str) (v : Nat) :
    lookupCount (setCount acc n v) n = v := by
  induction acc with
  | nil => simp [setCount, lookupCount]
  | cons p acc ih =>
    obtain ⟨k, x⟩ := p
    by_cases hk : k = n
    · simp [setCount, lookupCount, hk]
    · simp [setCount, lookupCount, hk, ih]

lemma lookupCount_setCount_other (acc : Inventory) (k n : Str) (v : Nat)
    (h : k ≠ n) : lookupCount (setCount acc k v) n = lookupCount acc n := by
  induction acc with
  | nil => simp [setCount, lookupCount, h]
  | cons p acc ih =>
    obtain ⟨k', x⟩ := p
    by_cases hk : k' = k
    · subst hk; simp [setCount, lookupCount, h]
    · simp [setCount, lookupCount, hk, ih]

lemma hasKey_setCount_other (acc : Inventory) (k n : Str) (v : Nat)
    (h : k ≠ n) : hasKey (setCount acc k v) n = hasKey acc n := by
  induction acc with
  | nil => simp [setCount, hasKey, h]
  | cons p acc ih =>
    obtain ⟨k', x⟩ := p
    by_cases hk : k' = k
    · subst hk; simp [setCount, hasKey, h]
    · simp [setCount, hasKey, hk, ih]

lemma normObjFold_not_mem (es : List (Str × Option ℚ)) :
    ∀ (acc : Inventory) (n : Str), (∀ p ∈ es, p.1 ≠ n) →
      lookupCount (es.foldl objStep acc) n = lookupCount acc n
      ∧ hasKey (es.foldl objStep acc) n = hasKey acc n := by
  induction es with
  | nil => intro acc n _; exact ⟨rfl, rfl⟩
  | cons p es ih =>
    intro acc n h
    have hp : p.1 ≠ n := h p (List.mem_cons_self p es)
    have hrest : ∀ q ∈ es, q.1 ≠ n := fun q hq => h q (List.mem_cons_of_mem _ hq)
    simp only [List.foldl_cons]
    have hstep : lookupCount (objStep acc p) n = lookupCount acc n
        ∧ hasKey (objStep acc p) n = hasKey acc n := by
      unfold objStep
      by_cases h1 : p.1.isEmpty
      · simp [h1]
      · cases h2 : p.2 with
        | none => simp [h1, h2]
        | some q =>
          simp only [h1, h2, Bool.false_eq_true, if_false]
          exact ⟨lookupCount_setCount_other _ _ _ _ hp,
            hasKey_setCount_other _ _ _ _ hp⟩
    obtain ⟨ha, hb⟩ := ih (objStep acc p) n hrest
    exact ⟨ha.trans hstep.1, hb.trans hstep.2⟩

lemma normObjFold_good (es : List (Str × Option ℚ)) :
    ∀ acc : Inventory, (keysOf acc).Nodup → [] ∉ keysOf acc →
      (keysOf (es.foldl objStep acc)).Nodup
      ∧ [] ∉ keysOf (es.foldl objStep acc) := by
  induction es with
  | nil => intro acc h1 h2; exact ⟨h1, h2⟩
  | cons p es ih =>
    intro acc h1 h2
    simp only [List.foldl_cons]
    apply ih
    · unfold objStep
      by_cases he : p.1.isEmpty
      · simpa [he] using h1
      · cases hq : p.2 with
        | none => simpa [he, hq] using h1
        | some q =>
          simp only [he, hq, Bool.false_eq_true, if_false]
          rw [keysOf_setCount]
          by_cases hh : hasKey acc p.1 = true
          · simp [hh, h1]
          · have hnm : p.1 ∉ keysOf acc := fun hm =>
              hh ((hasKey_iff_mem acc p.1).mpr hm)
            simp only [hh, Bool.false_eq_true, if_false]
            exact List.Nodup.append h1 (List.nodup_singleton _)
              (by simpa [List.disjoint_singleton] using hnm)
    · unfold objStep
      by_cases he : p.1.isEmpty
      · simpa [he] using h2
      · cases hq : p.2 with
        | none => simpa [he, hq] using h2
        | some q =>
          simp only [he, hq, Bool.false_eq_true, if_false]
          rw [keysOf_setCount]
          have hpe : p.1 ≠ [] := by
            intro hx; rw [hx] at he; simp at he
          by_cases hh : hasKey acc p.1 = true
          · simpa [hh] using h2
          · simp only [hh, Bool.false_eq_true, if_false, List.mem_append,
              List.mem_singleton]
            rintro (hmem | heq)
            · exact h2 hmem
            · exact hpe heq.symm

lemma clampCount_natCast (v : Nat) : clampCount ((v : Nat) : ℚ) = v := by
  unfold clampCount
  rw [Int.floor_natCast]
  omega

lemma hasKey_append (a b : Inventory) (n : Str) :
    hasKey (a ++ b) n = (hasKey a n || hasKey b n) := by
  induction a with
  | nil => simp [hasKey]
  | cons p a ih =>
    obtain ⟨k, v⟩ := p
    simp [hasKey, ih, Bool.or_assoc]

lemma foldl_objStep_rebuild (inv : Inventory) :
    ∀ acc : Inventory, (keysOf inv).Nodup → [] ∉ keysOf inv →
      (∀ k ∈ keysOf inv, hasKey acc k = false) →
      (invToEntries inv).foldl objStep acc = acc ++ inv := by
  induction inv with
  | nil => intro acc _ _ _; simp [invToEntries]
  | cons p inv ih =>
    obtain ⟨k, v⟩ := p
    intro acc hnd hne hdisj
    have hk_mem : k ∈ keysOf ((k, v) :: inv) := by simp [keysOf]
    have hk_ne : k ≠ [] := fun hx => hne (hx ▸ hk_mem)
    have hk_empty : k.isEmpty = false := by
      cases k with
      | nil => exact absurd rfl hk_ne
      | cons c cs => rfl
    have hunf : invToEntries ((k, v) :: inv)
        = (k, some ((v : Nat) : ℚ)) :: invToEntries inv := rfl
    rw [hunf, List.foldl_cons]
    have hstep : objStep acc (k, some ((v : Nat) : ℚ)) = acc ++ [(k, v)] := by
      simp only [objStep, hk_empty, Bool.false_eq_true, if_false]
      rw [clampCount_natCast, setCount_append _ _ _ (hdisj k hk_mem)]
    rw [hstep]
    have hnd' : (keysOf inv).Nodup := by
      simpa [keysOf] using (List.nodup_cons.mp (by simpa [keysOf] using hnd)).2
    have hk_not : k ∉ keysOf inv :=
      (List.nodup_cons.mp (by simpa [keysOf] using hnd)).1
    have hne' : [] ∉ keysOf inv := fun hx => hne (by simp [keysOf]; right; simpa [keysOf] using hx)
    have hdisj' : ∀ k' ∈ keysOf inv, hasKey (acc ++ [(k, v)]) k' = false := by
      intro k' hk'
      rw [hasKey_append]
      have h1 : hasKey acc k' = false := hdisj k' (by simp [keysOf]; right; simpa [keysOf] using hk')
      have h2 : hasKey [(k, v)] k' = false := by
        simp only [hasKey, Bool.or_false]
        exact decide_eq_false (fun heq => hk_not (heq ▸ hk'))
      simp [h1, h2]
    rw [ih (acc ++ [(k, v)]) hnd' hne' hdisj']
    simp

/-- C8: the normalizer is idempotent on plain mappings — feeding a
normalized inventory back in as a plain object returns it unchanged. -/
theorem normalizeInventory_idem (entries : List (Str × Option ℚ))
    (inv : Inventory) (h : normalizeInventory (.obj entries) = .ok inv) :
    normalizeInventory (.obj (invToEntries inv)) = .ok inv := by
  have hinv : normalizeObj entries = inv := by
    simpa [normalizeInventory] using h
  subst hinv
  have hgood := normObjFold_good entries [] (by simp [keysOf]) (by simp [keysOf])
  have hrebuild := foldl_objStep_rebuild (normalizeObj entries) []
    (by simpa [normalizeObj] using hgood.1)
    (by simpa [normalizeObj] using hgood.2)
    (fun k _ => rfl)
  simp only [normalizeInventory, Except.ok.injEq]
  simpa [normalizeObj] using hrebuild

/-- Witness for C8 at a concrete plain object (including a clamped
negative count). -/
theorem normalizeInventory_idem_witness :
    normalizeInventory (.obj (invToEntries [("A".toList, 2), ("B".toList, 0)]))
      = .ok [("A".toList, 2), ("B".toList, 0)] :=
  normalizeInventory_idem [("A".toList, some 2), ("B".toList, some (-1))] _ rfl

/-- C9: an object whose `cards` field is present but is not an array is
handled by the plain-object rule without failing: the key `"cards"`
itself becomes a card name whose value is coerced like any other entry —
kept floor-clamped when the coercion is finite, dropped when it is not. -/
theorem normalizeInventory_cards_not_array (entries : List (Str × Option ℚ))
    (hnd : (entries.map Prod.fst).Nodup) :
    normalizeInventory (.obj entries) = .ok (normalizeObj entries)
    ∧ (∀ q : ℚ, ("cards".toList, some q) ∈ entries →
        lookupCount (normalizeObj entries) ("cards".toList) = clampCount q)
    ∧ (("cards".toList, none) ∈ entries →
        hasKey (normalizeObj entries) ("cards".toList) = false) := by
  refine ⟨rfl, ?_, ?_⟩
  · intro q hq
    obtain ⟨l1, l2, heq⟩ := List.append_of_mem hq
    subst heq
    rw [List.map_append, List.map_cons] at hnd
    have hmid := List.nodup_middle.mp hnd
    have hnc : "cards".toList ∉ l1.map Prod.fst ++ l2.map Prod.fst :=
      (List.nodup_cons.mp hmid).1
    have hnc2 : ∀ p ∈ l2, p.1 ≠ "cards".toList := fun p hp hpe =>
      hnc (List.mem_append_right _ (hpe ▸ List.mem_map_of_mem _ hp))
    unfold normalizeObj
    rw [List.foldl_append, List.foldl_cons]
    have hstep : objStep (List.foldl objStep [] l1) ("cards".toList, some q)
        = setCount (List.foldl objStep [] l1) ("cards".toList) (clampCount q) := by
      simp [objStep]
    rw [hstep, (normObjFold_not_mem l2 _ _ hnc2).1]
    exact lookupCount_setCount_self _ _ _
  · intro hq
    obtain ⟨l1, l2, heq⟩ := List.append_of_mem hq
    subst heq
    rw [List.map_append, List.map_cons] at hnd
    have hmid := List.nodup_middle.mp hnd
    have hnc : "cards".toList ∉ l1.map Prod.fst ++ l2.map Prod.fst :=
      (List.nodup_cons.mp hmid).1
    have hnc1 : ∀ p ∈ l1, p.1 ≠ "cards".toList := fun p hp hpe =>
      hnc (List.mem_append_left _ (hpe ▸ List.mem_map_of_mem _ hp))
    have hnc2 : ∀ p ∈ l2, p.1 ≠ "cards".toList := fun p hp hpe =>
      hnc (List.mem_append_right _ (hpe ▸ List.mem_map_of_mem _ hp))
    unfold normalizeObj
    rw [List.foldl_append, List.foldl_cons]
    have hstep : objStep (List.foldl objStep [] l1) ("cards".toList, none)
        = List.foldl objStep [] l1 := by
      simp [objStep]
    rw [hstep, (normObjFold_not_mem l2 _ _ hnc2).2,
      (normObjFold_not_mem l1 _ _ hnc1).2]
    rfl

/-- Witness for C9: a concrete object whose `cards` key holds a numeric
(non-array) value keeps `"cards"` as an ordinary entry. -/
theorem normalizeInventory_cards_not_array_witness :
    lookupCount
        (normalizeObj [("cards".toList, some 7), ("X".toList, some 1)])
        ("cards".toList)
      = clampCount 7 :=
  ((normalizeInventory_cards_not_array
      [("cards".toList, some 7), ("X".toList, some 1)] (by decide)).2.1)
    7 (by decide)
